import Mathlib

/- Verification of the statistics core of the Correlation Game (src/app.js):
   sample generation (Box-Muller, bivariate-normal mixing), the three
   correlation statistics (Pearson, Spearman, Kendall tau-a), the rank
   transform with midrank tie handling, and the guess-checking round logic.

   JavaScript numbers are modelled as exact rationals where the code only
   performs field operations, and as real numbers where square roots enter.
   Randomness is modelled by passing the stream of uniform (resp. normal)
   draws explicitly.  A dedicated type JSNum with NaN and signed infinities
   models IEEE special-value propagation where a claim is about NaN. -/

namespace CorrelationGame

/-- The uniform draw selected for u by the re-draw loop in randn
(src/app.js lines 11-12): the stream value at the first index where it is
nonzero. -/
def randnU (s : ℕ → ℚ) (hu : ∃ i, s i ≠ 0) : ℚ := s (Nat.find hu)

/-- The uniform draw selected for v by the re-draw loop in randn
(src/app.js line 13): the first nonzero draw after the draws consumed for
u. -/
def randnV (s : ℕ → ℚ) (hu : ∃ i, s i ≠ 0)
    (hv : ∃ j, s (Nat.find hu + 1 + j) ≠ 0) : ℚ :=
  s (Nat.find hu + 1 + Nat.find hv)

/-- randn from src/app.js lines 9-15: the Box-Muller transform
sqrt(-2 log u) * cos(2 pi v) of the two selected uniform draws. -/
noncomputable def randn (s : ℕ → ℚ) (hu : ∃ i, s i ≠ 0)
    (hv : ∃ j, s (Nat.find hu + 1 + j) ≠ 0) : ℝ :=
  Real.sqrt (-2 * Real.log ((randnU s hu : ℚ) : ℝ)) *
    Real.cos (2 * Real.pi * ((randnV s hu hv : ℚ) : ℝ))

/-- generateBivariateNormal from src/app.js lines 17-29, with the stream g
of standard-normal draws passed explicitly; iteration i consumes draws
g (2*i) (for x) and g (2*i+1) (for the noise e) and pushes x and
rho * x + sqrt(1 - rho * rho) * e. -/
noncomputable def generateBivariateNormal (n : ℕ) (rho : ℝ) (g : ℕ → ℝ) :
    List ℝ × List ℝ :=
  let s := Real.sqrt (1 - rho * rho)
  (List.range n).foldl
    (fun acc i =>
      let x := g (2 * i)
      let e := g (2 * i + 1)
      (acc.1 ++ [x], acc.2 ++ [rho * x + s * e]))
    ([], [])

/-- mean from src/app.js lines 31-33: reduce((s, v) => s + v, 0) / length. -/
def mean (a : List ℚ) : ℚ :=
  a.foldl (fun s v => s + v) 0 / (a.length : ℚ)

/-- The radicand computed inside sd (src/app.js lines 35-39): the sum of
squared deviations from the mean divided by (length - 1). -/
def varQ (a : List ℚ) : ℚ :=
  let m := mean a
  a.foldl (fun s x => s + (x - m) ^ 2) 0 / ((a.length : ℚ) - 1)

/-- sd from src/app.js lines 35-39: square root of the n-1 variance. -/
noncomputable def sd (a : List ℚ) : ℝ := Real.sqrt ((varQ a : ℚ) : ℝ)

/-- The covariance accumulated by pearsonr (src/app.js lines 44-46): the
loop over i < x.length adding (x[i] - mx) * (y[i] - my), divided by n-1. -/
def covQ (x y : List ℚ) : ℚ :=
  let mx := mean x
  let my := mean y
  ((List.range x.length).foldl
      (fun s i => s + (x.getD i 0 - mx) * (y.getD i 0 - my)) 0) /
    ((x.length : ℚ) - 1)

/-- pearsonr from src/app.js lines 41-48: cov / (sd x * sd y). -/
noncomputable def pearsonr (x y : List ℚ) : ℝ :=
  ((covQ x y : ℚ) : ℝ) / (sd x * sd y)

/-- Comparator used to sort the (value, index) pairs in rankArray
(src/app.js line 53): ascending by value. -/
def pairLE (a b : ℚ × ℕ) : Prop := a.1 ≤ b.1

instance : DecidableRel pairLE := fun a b => inferInstanceAs (Decidable (a.1 ≤ b.1))

instance : IsTotal (ℚ × ℕ) pairLE := ⟨fun a b => le_total a.1 b.1⟩

instance : IsTrans (ℚ × ℕ) pairLE := ⟨fun _ _ _ h h' => le_trans h h'⟩

/-- The grouping loop of rankArray (src/app.js lines 55-62), with explicit
fuel (the loop consumes at least one element of the sorted list per
iteration, so fuel = length suffices).  Position i is the 0-based sorted
position of the group head; the group is the maximal run of pairs whose
value equals the head value; every member is assigned the average rank
(i + j + 2) / 2 where j is the 0-based position of the last group member. -/
def rankGoF : ℕ → ℕ → List (ℚ × ℕ) → List (ℕ × ℚ)
  | 0, _, _ => []
  | _ + 1, _, [] => []
  | fuel + 1, i, (v, idx) :: rest =>
    let grp := rest.takeWhile (fun p => decide (p.1 = v))
    let avg : ℚ := ((i + (i + grp.length) + 2 : ℕ) : ℚ) / 2
    ((idx, avg) :: grp.map (fun p => (p.2, avg))) ++
      rankGoF fuel (i + grp.length + 1) (rest.dropWhile (fun p => decide (p.1 = v)))

/-- rankArray from src/app.js lines 50-64: pair each value with its index,
sort ascending by value (the comparator (a, b) => a.v - b.v is modelled by
a concrete ascending sort; the rank output is independent of which sorted
permutation the sort produces, and the core lemmas below are proved for an
arbitrary sorted permutation), walk the sorted list assigning midranks to
groups of equal values, and write each rank back at the original index. -/
def rankArray (arr : List ℚ) : List ℚ :=
  let pairs := arr.enum.map (fun p => (p.2, p.1))
  let sorted := List.insertionSort pairLE pairs
  let assigns := rankGoF sorted.length 0 sorted
  assigns.foldl (fun ranks p => ranks.set p.1 p.2) (List.replicate arr.length 0)

/-- spearmanr from src/app.js lines 66-70: pearsonr on the rank
transforms. -/
noncomputable def spearmanr (x y : List ℚ) : ℝ :=
  pearsonr (rankArray x) (rankArray y)

/-- The index pairs visited by the nested loops of kendallTau
(src/app.js lines 76-77): i from 0 to n-2, j from i+1 to n-1. -/
def kendallPairs (n : ℕ) : List (ℕ × ℕ) :=
  (List.range n).flatMap
    (fun i => (List.range' (i + 1) (n - (i + 1))).map (fun j => (i, j)))

/-- kendallTau from src/app.js lines 72-88: count pairs with strictly
positive (concordant) and strictly negative (discordant) product of
differences, ignore zero products, and divide the difference of counts by
n * (n - 1) / 2. -/
def kendallTau (x y : List ℚ) : ℚ :=
  let n := x.length
  let cd := (kendallPairs n).foldl
    (fun acc p =>
      let dx := x.getD p.1 0 - x.getD p.2 0
      let dy := y.getD p.1 0 - y.getD p.2 0
      let prod := dx * dy
      if 0 < prod then (acc.1 + 1, acc.2)
      else if prod < 0 then (acc.1, acc.2 + 1)
      else acc)
    ((0 : ℕ), (0 : ℕ))
  ((cd.1 : ℚ) - (cd.2 : ℚ)) / ((n : ℚ) * ((n : ℚ) - 1) / 2)

/-- The tolerance actually applied by checkGuesses (src/app.js line 172):
Math.abs(parseFloat(toleranceInput.value) || 0.1).  A failed parse (none)
or a parse of exactly 0 falls back to the default 0.1 before the absolute
value is taken. -/
def tolOf (t : Option ℚ) : ℚ :=
  |(match t with
    | none => (1 : ℚ) / 10
    | some c => if c = 0 then (1 : ℚ) / 10 else c)|

/-- The round state read by checkGuesses (src/app.js lines 109-115): the
current sample and its three precomputed statistics. -/
structure Round where
  xs : List ℚ
  ys : List ℚ
  pearson : ℚ
  spearman : ℚ
  kendall : ℚ

/-- Outcome of one guess submission: either the fill-all-fields validation
failure, or a verdict carrying the three diffs, the three per-statistic
pass flags, and the overall win flag. -/
inductive CheckResult where
  | invalid : CheckResult
  | verdict : ℚ → ℚ → ℚ → Bool → Bool → Bool → Bool → CheckResult

/-- Overall win flag of a check result (false for the validation
failure). -/
def resultWin : CheckResult → Bool
  | .invalid => false
  | .verdict _ _ _ _ _ _ w => w

/-- Pearson pass flag of a check result. -/
def resultPPass : CheckResult → Bool
  | .invalid => false
  | .verdict _ _ _ p _ _ _ => p

/-- Spearman pass flag of a check result. -/
def resultSPass : CheckResult → Bool
  | .invalid => false
  | .verdict _ _ _ _ s _ _ => s

/-- Kendall pass flag of a check result. -/
def resultKPass : CheckResult → Bool
  | .invalid => false
  | .verdict _ _ _ _ _ k _ => k

/-- The three diffs of a check result, when a verdict was produced. -/
def resultDiffs : CheckResult → Option (ℚ × ℚ × ℚ)
  | .invalid => none
  | .verdict dp ds dk _ _ _ _ => some (dp, ds, dk)

/-- checkGuesses from src/app.js lines 170-207 (DOM rendering dropped):
compute the applied tolerance, short-circuit to the validation failure if
any guess failed to parse, otherwise build the per-statistic diffs and
verdicts and the overall win flag.  The function only reads the round
state, so it returns it unchanged. -/
def checkGuesses (st : Round) (tolIn : Option ℚ) (gp gs gk : Option ℚ) :
    Round × CheckResult :=
  let tol := tolOf tolIn
  match gp, gs, gk with
  | some p, some s, some k =>
    let pDiff := |p - st.pearson|
    let sDiff := |s - st.spearman|
    let kDiff := |k - st.kendall|
    let pPass := decide (pDiff ≤ tol)
    let sPass := decide (sDiff ≤ tol)
    let kPass := decide (kDiff ≤ tol)
    (st, .verdict pDiff sDiff kDiff pPass sPass kPass (pPass && sPass && kPass))
  | _, _, _ => (st, .invalid)

/-- A JavaScript number: NaN, a signed infinity (true = positive), or a
finite value. -/
inductive JSNum where
  | nan : JSNum
  | inf : Bool → JSNum
  | num : ℝ → JSNum

/-- IEEE addition on JSNum. -/
noncomputable def jadd : JSNum → JSNum → JSNum
  | .nan, _ => .nan
  | _, .nan => .nan
  | .inf b, .inf c => if b = c then .inf b else .nan
  | .inf b, .num _ => .inf b
  | .num _, .inf c => .inf c
  | .num a, .num b => .num (a + b)

/-- IEEE subtraction on JSNum. -/
noncomputable def jsub : JSNum → JSNum → JSNum
  | .nan, _ => .nan
  | _, .nan => .nan
  | .inf b, .inf c => if b = c then .nan else .inf b
  | .inf b, .num _ => .inf b
  | .num _, .inf c => .inf (!c)
  | .num a, .num b => .num (a - b)

/-- IEEE multiplication on JSNum (zero times infinity is NaN). -/
noncomputable def jmul : JSNum → JSNum → JSNum
  | .nan, _ => .nan
  | _, .nan => .nan
  | .inf b, .inf c => .inf (b == c)
  | .inf b, .num a => if a = 0 then .nan else .inf (b == decide (0 < a))
  | .num a, .inf c => if a = 0 then .nan else .inf (c == decide (0 < a))
  | .num a, .num b => .num (a * b)

/-- IEEE division on JSNum (0/0 is NaN, nonzero/0 is signed infinity). -/
noncomputable def jdiv : JSNum → JSNum → JSNum
  | .nan, _ => .nan
  | _, .nan => .nan
  | .inf _, .inf _ => .nan
  | .inf b, .num a => .inf (b == decide (0 ≤ a))
  | .num _, .inf _ => .num 0
  | .num a, .num b =>
    if b = 0 then (if a = 0 then .nan else .inf (decide (0 < a)))
    else .num (a / b)

/-- IEEE square root on JSNum (negative argument gives NaN). -/
noncomputable def jsqrt : JSNum → JSNum
  | .nan => .nan
  | .inf true => .inf true
  | .inf false => .nan
  | .num a => if a < 0 then .nan else .num (Real.sqrt a)

/-- Squaring on JSNum, modelling the ** 2 in sd. -/
noncomputable def jsq (a : JSNum) : JSNum := jmul a a

/-- IEEE strict less-than on JSNum: any comparison with NaN is false. -/
noncomputable def jlt : JSNum → JSNum → Bool
  | .nan, _ => false
  | _, .nan => false
  | .inf true, .inf true => false
  | .inf true, _ => false
  | .inf false, .inf false => false
  | .inf false, _ => true
  | .num _, .inf true => true
  | .num _, .inf false => false
  | .num a, .num b => decide (a < b)

/-- Array indexing as seen by JavaScript arithmetic: an out-of-bounds read
yields undefined, which behaves as NaN in every arithmetic context. -/
def jget (a : List ℚ) (i : ℕ) : JSNum :=
  match a[i]? with
  | some q => .num ((q : ℚ) : ℝ)
  | none => .nan

/-- mean from src/app.js under exact IEEE special-value propagation. -/
noncomputable def meanJS (a : List ℚ) : JSNum :=
  jdiv (a.foldl (fun s v => jadd s (.num ((v : ℚ) : ℝ))) (.num 0))
    (.num (a.length : ℝ))

/-- sd from src/app.js under exact IEEE special-value propagation. -/
noncomputable def sdJS (a : List ℚ) : JSNum :=
  let m := meanJS a
  jsqrt (jdiv
    (a.foldl (fun s x => jadd s (jsq (jsub (.num ((x : ℚ) : ℝ)) m))) (.num 0))
    (.num ((a.length : ℝ) - 1)))

/-- pearsonr from src/app.js under exact IEEE special-value propagation. -/
noncomputable def pearsonrJS (x y : List ℚ) : JSNum :=
  let n := x.length
  let mx := meanJS x
  let my := meanJS y
  let cov := (List.range n).foldl
    (fun s i => jadd s (jmul (jsub (jget x i) mx) (jsub (jget y i) my)))
    (.num 0)
  let cov2 := jdiv cov (.num ((n : ℝ) - 1))
  jdiv cov2 (jmul (sdJS x) (sdJS y))

/-- spearmanr from src/app.js under exact IEEE special-value propagation. -/
noncomputable def spearmanrJS (x y : List ℚ) : JSNum :=
  pearsonrJS (rankArray x) (rankArray y)

/-- kendallTau from src/app.js under exact IEEE special-value propagation:
comparisons involving NaN are false, so pairs touching an out-of-bounds
index fall through to the ignored branch. -/
noncomputable def kendallTauJS (x y : List ℚ) : JSNum :=
  let n := x.length
  let cd := (kendallPairs n).foldl
    (fun acc p =>
      let prod := jmul (jsub (jget x p.1) (jget x p.2))
        (jsub (jget y p.1) (jget y p.2))
      if jlt (.num 0) prod then (acc.1 + 1, acc.2)
      else if jlt prod (.num 0) then (acc.1, acc.2 + 1)
      else acc)
    ((0 : ℕ), (0 : ℕ))
  jdiv (.num ((cd.1 : ℝ) - (cd.2 : ℝ)))
    (.num ((n : ℝ) * ((n : ℝ) - 1) / 2))

/-- Sample covariance as the specification words it: the average (with the
n-1 divisor) of the products of paired deviations from the means. -/
def sampleCovariance (x y : List ℚ) : ℚ :=
  ((x.zip y).map (fun p => (p.1 - mean x) * (p.2 - mean y))).sum /
    ((x.length : ℚ) - 1)

/-- Sample standard deviation as the specification words it: square root
of the sum of squared deviations divided by n-1. -/
noncomputable def sampleStdDev (a : List ℚ) : ℝ :=
  Real.sqrt (((a.map (fun v => (v - mean a) ^ 2)).sum / ((a.length : ℚ) - 1) : ℚ) : ℝ)

/-- Concordant pairs as the specification words them: unordered pairs of
distinct indices (represented by i < j) whose product of coordinate
differences is strictly positive. -/
def concordantPairs (x y : List ℚ) : Finset (ℕ × ℕ) :=
  (Finset.range x.length ×ˢ Finset.range x.length).filter
    (fun p => p.1 < p.2 ∧
      0 < (x.getD p.1 0 - x.getD p.2 0) * (y.getD p.1 0 - y.getD p.2 0))

/-- Discordant pairs as the specification words them: unordered pairs of
distinct indices (represented by i < j) whose product of coordinate
differences is strictly negative. -/
def discordantPairs (x y : List ℚ) : Finset (ℕ × ℕ) :=
  (Finset.range x.length ×ˢ Finset.range x.length).filter
    (fun p => p.1 < p.2 ∧
      (x.getD p.1 0 - x.getD p.2 0) * (y.getD p.1 0 - y.getD p.2 0) < 0)

/-- Constant uniform stream used to instantiate the randomness-dependent
theorems. -/
def halfStream : ℕ → ℚ := fun _ => 1 / 2

/-- Constant normal-draw stream used to instantiate the generator
theorems. -/
def zeroStream : ℕ → ℝ := fun _ => 0

/-- Folding plain addition over a rational list starting from c gives c
plus the sum. -/
theorem foldl_add_sum : ∀ (l : List ℚ) (c : ℚ),
    l.foldl (fun s v => s + v) c = c + l.sum
  | [], c => by simp
  | a :: l, c => by
    rw [List.foldl_cons, foldl_add_sum l (c + a), List.sum_cons]
    ring

/-- Folding addition of f over a list starting from c gives c plus the sum
of the mapped list. -/
theorem foldl_add_eq {α : Type} (f : α → ℚ) :
    ∀ (l : List α) (c : ℚ), l.foldl (fun s v => s + f v) c = c + (l.map f).sum
  | [], c => by simp
  | a :: l, c => by
    rw [List.foldl_cons, foldl_add_eq f l (c + f a), List.map_cons, List.sum_cons]
    ring

/-- mean computes sum over length. -/
theorem mean_eq (a : List ℚ) : mean a = a.sum / (a.length : ℚ) := by
  unfold mean
  rw [foldl_add_sum]
  simp

/-- The radicand of sd in closed form. -/
theorem varQ_eq (a : List ℚ) :
    varQ a = (a.map (fun x => (x - mean a) ^ 2)).sum / ((a.length : ℚ) - 1) := by
  show a.foldl (fun s x => s + (x - mean a) ^ 2) 0 / ((a.length : ℚ) - 1) = _
  rw [foldl_add_eq (fun x => (x - mean a) ^ 2) a 0]
  simp

/-- sd agrees with the specification's sample standard deviation. -/
theorem sd_eq_sampleStdDev (a : List ℚ) : sd a = sampleStdDev a := by
  unfold sd sampleStdDev
  rw [varQ_eq]

/-- Indexing two equal-length lists over their common range is the same as
zipping them. -/
theorem range_map_getD_zip (f : ℚ → ℚ → ℚ) :
    ∀ (x y : List ℚ), y.length = x.length →
      (List.range x.length).map (fun i => f (x.getD i 0) (y.getD i 0)) =
        (x.zip y).map (fun p => f p.1 p.2)
  | [], y, h => by simp
  | a :: x, [], h => by simp at h
  | a :: x, b :: y, h => by
    simp only [List.length_cons, Nat.succ_inj] at h
    simp only [List.length_cons, List.range_succ_eq_map, List.map_cons,
      List.getD_cons_zero, List.map_map, List.zip_cons_cons]
    congr 1
    rw [← range_map_getD_zip f x y h]
    apply List.map_congr_left
    intro i _
    simp [Function.comp, List.getD_cons_succ]

/-- The covariance loop of pearsonr agrees with the specification's sample
covariance on equal-length inputs. -/
theorem covQ_eq_sampleCovariance (x y : List ℚ) (hlen : y.length = x.length) :
    covQ x y = sampleCovariance x y := by
  unfold covQ sampleCovariance
  show ((List.range x.length).foldl
      (fun s i => s + (x.getD i 0 - mean x) * (y.getD i 0 - mean y)) 0) /
        ((x.length : ℚ) - 1) = _
  rw [foldl_add_eq (fun i => (x.getD i 0 - mean x) * (y.getD i 0 - mean y))
    (List.range x.length) 0]
  rw [range_map_getD_zip (fun u w => (u - mean x) * (w - mean y)) x y hlen]
  simp

/-- Claim C3: for equal-length sequences of length at least 2 with nonzero
variance on each side, pearsonr is the sample covariance (n-1 divisor,
two-pass: means first, deviations second) divided by the product of the
sample standard deviations (also n-1 divisor). -/
theorem pearsonr_covariance_spec (x y : List ℚ) (hlen : y.length = x.length)
    (h2 : 2 ≤ x.length) (hvx : varQ x ≠ 0) (hvy : varQ y ≠ 0) :
    pearsonr x y =
      ((sampleCovariance x y : ℚ) : ℝ) / (sampleStdDev x * sampleStdDev y) := by
  unfold pearsonr
  rw [covQ_eq_sampleCovariance x y hlen, sd_eq_sampleStdDev, sd_eq_sampleStdDev]

/-- Witness for C3 at x = [1,2,3], y = [2,4,5]. -/
theorem pearsonr_covariance_spec_witness :
    (([2, 4, 5] : List ℚ).length = ([1, 2, 3] : List ℚ).length ∧
      2 ≤ ([1, 2, 3] : List ℚ).length ∧
      varQ [1, 2, 3] ≠ 0 ∧ varQ [2, 4, 5] ≠ 0) ∧
    pearsonr [1, 2, 3] [2, 4, 5] =
      ((sampleCovariance [1, 2, 3] [2, 4, 5] : ℚ) : ℝ) /
        (sampleStdDev [1, 2, 3] * sampleStdDev [2, 4, 5]) := by
  have hvx : varQ [1, 2, 3] ≠ 0 := by
    rw [varQ_eq]
    norm_num [mean_eq]
  have hvy : varQ [2, 4, 5] ≠ 0 := by
    rw [varQ_eq]
    norm_num [mean_eq]
  exact ⟨⟨by decide, by decide, hvx, hvy⟩,
    pearsonr_covariance_spec [1, 2, 3] [2, 4, 5] (by decide) (by decide) hvx hvy⟩

/-- Claim C4: spearmanr is pearsonr applied to the rank transforms of the
two inputs, for all inputs including those with ties. -/
theorem spearmanr_rank_pearson_spec (x y : List ℚ) :
    spearmanr x y = pearsonr (rankArray x) (rankArray y) := rfl

/-- Claim C10: the tolerance applied by checkGuesses is always strictly
positive; a missing or zero parse falls back to the default 1/10, and a
negative parse is replaced by its absolute value, so an exact-match round
cannot be configured. -/
theorem tolOf_spec :
    (∀ t, 0 < tolOf t) ∧ tolOf none = 1 / 10 ∧
      (∀ c : ℚ, tolOf (some c) = if c = 0 then 1 / 10 else |c|) := by
  have h110 : |(1 : ℚ) / 10| = 1 / 10 := abs_of_nonneg (by norm_num)
  refine ⟨?_, ?_, ?_⟩
  · intro t
    cases t with
    | none =>
      simp only [tolOf, h110]
      norm_num
    | some c =>
      by_cases hc : c = 0
      · simp only [tolOf, if_pos hc, h110]
        norm_num
      · simp only [tolOf, if_neg hc]
        exact abs_pos.mpr hc
  · simp only [tolOf, h110]
  · intro c
    by_cases hc : c = 0
    · simp only [tolOf, if_pos hc, h110]
    · simp only [tolOf, if_neg hc]

/-- Claim C7: if any guess fails to parse, checkGuesses short-circuits to
the fill-all-fields validation failure — no diff or per-statistic verdict
is produced — and the round state is returned unchanged. -/
theorem checkGuesses_invalid_spec (st : Round) (ti : Option ℚ)
    (gp gs gk : Option ℚ) (h : gp = none ∨ gs = none ∨ gk = none) :
    checkGuesses st ti gp gs gk = (st, CheckResult.invalid) := by
  rcases h with rfl | rfl | rfl
  · rfl
  · cases gp <;> rfl
  · cases gp <;> cases gs <;> rfl

/-- Witness for C7: an empty Pearson guess field. -/
theorem checkGuesses_invalid_spec_witness :
    ((none : Option ℚ) = none ∨ (some (1 : ℚ)) = none ∨ (some (2 : ℚ)) = none) ∧
    checkGuesses ⟨[], [], 0, 0, 0⟩ (some (1 / 10)) none (some 1) (some 2) =
      (⟨[], [], 0, 0, 0⟩, CheckResult.invalid) :=
  ⟨Or.inl rfl,
    checkGuesses_invalid_spec ⟨[], [], 0, 0, 0⟩ (some (1 / 10)) none (some 1)
      (some 2) (Or.inl rfl)⟩

/-- Claim C8: randn draws two uniforms, re-drawing any draw of exactly 0,
so the argument of the logarithm is strictly positive (the log-of-zero
branch is unreachable), and the returned variate is the Box-Muller
transform sqrt(-2 log u) * cos(2 pi v) of the two selected draws. -/
theorem randn_boxmuller_spec (s : ℕ → ℚ) (hu : ∃ i, s i ≠ 0)
    (hv : ∃ j, s (Nat.find hu + 1 + j) ≠ 0)
    (h01 : ∀ i, 0 ≤ s i ∧ s i < 1) :
    0 < randnU s hu ∧ 0 < randnV s hu hv ∧
      randn s hu hv =
        Real.sqrt (-2 * Real.log ((randnU s hu : ℚ) : ℝ)) *
          Real.cos (2 * Real.pi * ((randnV s hu hv : ℚ) : ℝ)) := by
  refine ⟨?_, ?_, rfl⟩
  · exact lt_of_le_of_ne (h01 (Nat.find hu)).1 (Ne.symm (Nat.find_spec hu))
  · exact lt_of_le_of_ne (h01 (Nat.find hu + 1 + Nat.find hv)).1
      (Ne.symm (Nat.find_spec hv))

/-- Existence of a nonzero draw in the constant 1/2 stream. -/
theorem halfStream_ex : ∃ i, halfStream i ≠ 0 := ⟨0, by norm_num [halfStream]⟩

/-- Existence of a nonzero later draw in the constant 1/2 stream. -/
theorem halfStream_ex' :
    ∃ j, halfStream (Nat.find halfStream_ex + 1 + j) ≠ 0 :=
  ⟨0, by norm_num [halfStream]⟩

/-- The constant 1/2 stream consists of uniform draws. -/
theorem halfStream_01 : ∀ i, 0 ≤ halfStream i ∧ halfStream i < 1 := by
  intro i
  norm_num [halfStream]

/-- Witness for C8 on the constant 1/2 stream. -/
theorem randn_boxmuller_spec_witness :
    (∀ i, 0 ≤ halfStream i ∧ halfStream i < 1) ∧
      (0 < randnU halfStream halfStream_ex ∧
        0 < randnV halfStream halfStream_ex halfStream_ex' ∧
        randn halfStream halfStream_ex halfStream_ex' =
          Real.sqrt (-2 * Real.log ((randnU halfStream halfStream_ex : ℚ) : ℝ)) *
            Real.cos (2 * Real.pi *
              ((randnV halfStream halfStream_ex halfStream_ex' : ℚ) : ℝ))) :=
  ⟨halfStream_01,
    randn_boxmuller_spec halfStream halfStream_ex halfStream_ex' halfStream_01⟩

/-- The generator loop in closed form: element i of xs is the draw g(2i)
and element i of ys is rho * g(2i) + sqrt(1 - rho * rho) * g(2i+1). -/
theorem generateBivariateNormal_eq (n : ℕ) (rho : ℝ) (g : ℕ → ℝ) :
    generateBivariateNormal n rho g =
      ((List.range n).map (fun i => g (2 * i)),
        (List.range n).map
          (fun i => rho * g (2 * i) + Real.sqrt (1 - rho * rho) * g (2 * i + 1))) := by
  induction n with
  | zero => rfl
  | succ m ih =>
    unfold generateBivariateNormal at ih ⊢
    simp only [List.range_succ, List.foldl_append, List.foldl_cons, List.foldl_nil,
      List.map_append, List.map_cons, List.map_nil] at ih ⊢
    rw [ih]

/-- Claim C9: for positive n, generateBivariateNormal returns two lists of
length exactly n, paired by index, with xs[i] the i-th x draw and
ys[i] = rho * xs[i] + sqrt(1 - rho^2) * e[i] for the independent noise
draw e[i]. -/
theorem generateBivariateNormal_spec (n : ℕ) (rho : ℝ) (g : ℕ → ℝ)
    (hn : 0 < n) :
    (generateBivariateNormal n rho g).1.length = n ∧
    (generateBivariateNormal n rho g).2.length = n ∧
    ∀ i, i < n →
      (generateBivariateNormal n rho g).1.getD i 0 = g (2 * i) ∧
      (generateBivariateNormal n rho g).2.getD i 0 =
        rho * (generateBivariateNormal n rho g).1.getD i 0 +
          Real.sqrt (1 - rho ^ 2) * g (2 * i + 1) := by
  rw [generateBivariateNormal_eq]
  refine ⟨by simp, by simp, ?_⟩
  intro i hi
  have h1 : ((List.range n).map (fun i => g (2 * i))).getD i 0 = g (2 * i) := by
    rw [List.getD_eq_getElem?_getD, List.getElem?_map, List.getElem?_range hi]
    rfl
  have h2 : ((List.range n).map
      (fun i => rho * g (2 * i) + Real.sqrt (1 - rho * rho) * g (2 * i + 1))).getD i 0 =
      rho * g (2 * i) + Real.sqrt (1 - rho * rho) * g (2 * i + 1) := by
    rw [List.getD_eq_getElem?_getD, List.getElem?_map, List.getElem?_range hi]
    rfl
  refine ⟨h1, ?_⟩
  rw [h1, h2, sq]

/-- Witness for C9 at n = 1, rho = 0, and the zero draw stream. -/
theorem generateBivariateNormal_spec_witness :
    0 < 1 ∧
      ((generateBivariateNormal 1 0 zeroStream).1.length = 1 ∧
        (generateBivariateNormal 1 0 zeroStream).2.length = 1 ∧
        ∀ i, i < 1 →
          (generateBivariateNormal 1 0 zeroStream).1.getD i 0 = zeroStream (2 * i) ∧
          (generateBivariateNormal 1 0 zeroStream).2.getD i 0 =
            0 * (generateBivariateNormal 1 0 zeroStream).1.getD i 0 +
              Real.sqrt (1 - 0 ^ 2) * zeroStream (2 * i + 1)) :=
  ⟨Nat.one_pos, generateBivariateNormal_spec 1 0 zeroStream Nat.one_pos⟩

/-- Claim C6: when all three guesses parse, each statistic passes iff
|guess - actual| is at most the tolerance and the overall win flag is the
conjunction of the three verdicts; in particular with actual
(0.50, 0.48, 0.33) and tolerance 0.1, the guess (0.55, 0.40, 0.25) gives
diffs (0.05, 0.08, 0.08) and win = true, while (0.70, 0.40, 0.25) gives a
Pearson diff of 0.20 and win = false. -/
theorem checkGuesses_verdict_spec :
    (∀ (st : Round) (ti : Option ℚ) (p s k : ℚ),
      (resultPPass (checkGuesses st ti (some p) (some s) (some k)).2 = true ↔
        |p - st.pearson| ≤ tolOf ti) ∧
      (resultSPass (checkGuesses st ti (some p) (some s) (some k)).2 = true ↔
        |s - st.spearman| ≤ tolOf ti) ∧
      (resultKPass (checkGuesses st ti (some p) (some s) (some k)).2 = true ↔
        |k - st.kendall| ≤ tolOf ti) ∧
      (resultWin (checkGuesses st ti (some p) (some s) (some k)).2 = true ↔
        (|p - st.pearson| ≤ tolOf ti ∧ |s - st.spearman| ≤ tolOf ti ∧
          |k - st.kendall| ≤ tolOf ti))) ∧
    checkGuesses ⟨[], [], 1 / 2, 12 / 25, 33 / 100⟩ (some (1 / 10))
        (some (11 / 20)) (some (2 / 5)) (some (1 / 4)) =
      (⟨[], [], 1 / 2, 12 / 25, 33 / 100⟩,
        CheckResult.verdict (1 / 20) (2 / 25) (2 / 25) true true true true) ∧
    checkGuesses ⟨[], [], 1 / 2, 12 / 25, 33 / 100⟩ (some (1 / 10))
        (some (7 / 10)) (some (2 / 5)) (some (1 / 4)) =
      (⟨[], [], 1 / 2, 12 / 25, 33 / 100⟩,
        CheckResult.verdict (1 / 5) (2 / 25) (2 / 25) false true true false) := by
  have ht : tolOf (some ((1 : ℚ) / 10)) = 1 / 10 := by
    simp only [tolOf]
    rw [if_neg (by norm_num)]
    exact abs_of_nonneg (by norm_num)
  have d1 : |(11 : ℚ) / 20 - 1 / 2| = 1 / 20 := by
    rw [show (11 : ℚ) / 20 - 1 / 2 = 1 / 20 by norm_num]
    exact abs_of_nonneg (by norm_num)
  have d2 : |(2 : ℚ) / 5 - 12 / 25| = 2 / 25 := by
    rw [show (2 : ℚ) / 5 - 12 / 25 = -(2 / 25) by norm_num, abs_neg]
    exact abs_of_nonneg (by norm_num)
  have d3 : |(1 : ℚ) / 4 - 33 / 100| = 2 / 25 := by
    rw [show (1 : ℚ) / 4 - 33 / 100 = -(2 / 25) by norm_num, abs_neg]
    exact abs_of_nonneg (by norm_num)
  have d4 : |(7 : ℚ) / 10 - 1 / 2| = 1 / 5 := by
    rw [show (7 : ℚ) / 10 - 1 / 2 = 1 / 5 by norm_num]
    exact abs_of_nonneg (by norm_num)
  have b1 : decide ((1 : ℚ) / 20 ≤ 1 / 10) = true := by
    simp only [decide_eq_true_eq]
    norm_num
  have b2 : decide ((2 : ℚ) / 25 ≤ 1 / 10) = true := by
    simp only [decide_eq_true_eq]
    norm_num
  have b3 : decide ((1 : ℚ) / 5 ≤ 1 / 10) = false := by
    simp only [decide_eq_false_iff_not]
    norm_num
  refine ⟨?_, ?_, ?_⟩
  · intro st ti p s k
    simp only [checkGuesses, resultPPass, resultSPass, resultKPass, resultWin,
      Bool.and_eq_true, decide_eq_true_eq]
    tauto
  · simp only [checkGuesses, ht, d1, d2, d3, b1, b2]
    rfl
  · simp only [checkGuesses, ht, d2, d3, d4, b2, b3]
    rfl

/-- The counting loop of kendallTau in closed form: the counters accumulate
the number of strictly positive and strictly negative products. -/
theorem foldl_count (P : ℕ × ℕ → ℚ) :
    ∀ (l : List (ℕ × ℕ)) (a b : ℕ),
      l.foldl (fun acc p =>
          if 0 < P p then (acc.1 + 1, acc.2)
          else if P p < 0 then (acc.1, acc.2 + 1) else acc) (a, b) =
        (a + l.countP (fun p => decide (0 < P p)),
          b + l.countP (fun p => decide (P p < 0)))
  | [], a, b => by simp
  | h :: t, a, b => by
    rw [List.foldl_cons]
    rcases lt_trichotomy (P h) 0 with hlt | heq | hgt
    · have c1 : decide (0 < P h) = false := decide_eq_false (not_lt.mpr hlt.le)
      have c2 : decide (P h < 0) = true := decide_eq_true hlt
      rw [if_neg (not_lt.mpr hlt.le), if_pos hlt, foldl_count P t a (b + 1)]
      simp [List.countP_cons, c1, c2, Prod.mk.injEq]
      omega
    · have c1 : decide (0 < P h) = false := decide_eq_false (by rw [heq]; exact lt_irrefl 0)
      have c2 : decide (P h < 0) = false := decide_eq_false (by rw [heq]; exact lt_irrefl 0)
      rw [if_neg (by rw [heq]; exact lt_irrefl 0), if_neg (by rw [heq]; exact lt_irrefl 0),
        foldl_count P t a b]
      simp [List.countP_cons, c1, c2, Prod.mk.injEq]
    · have c1 : decide (0 < P h) = true := decide_eq_true hgt
      have c2 : decide (P h < 0) = false := decide_eq_false (not_lt.mpr hgt.le)
      rw [if_pos hgt, foldl_count P t (a + 1) b]
      simp [List.countP_cons, c1, c2, Prod.mk.injEq]
      omega

/-- Membership in the kendall pair list: exactly the pairs i < j < n. -/
theorem mem_kendallPairs (n : ℕ) (p : ℕ × ℕ) :
    p ∈ kendallPairs n ↔ p.1 < p.2 ∧ p.2 < n := by
  cases p with
  | mk i j =>
    simp only [kendallPairs, List.mem_flatMap, List.mem_map, List.mem_range,
      List.mem_range'_1, Prod.mk.injEq]
    constructor
    · rintro ⟨a, ha, b, ⟨hb1, hb2⟩, rfl, rfl⟩
      constructor <;> omega
    · rintro ⟨h1, h2⟩
      exact ⟨i, by omega, j, ⟨by omega, by omega⟩, rfl, rfl⟩

/-- The kendall pair list has no duplicates. -/
theorem kendallPairs_nodup (n : ℕ) : (kendallPairs n).Nodup := by
  rw [kendallPairs]
  rw [List.nodup_flatMap]
  refine ⟨?_, ?_⟩
  · intro i _
    exact (List.nodup_range' (i + 1) (n - (i + 1))).map
      (fun a b hab => by simpa using hab)
  · refine List.Pairwise.imp ?_ (List.nodup_range n)
    intro i j hij a ha ha'
    rcases List.mem_map.mp ha with ⟨u, _, rfl⟩
    rcases List.mem_map.mp ha' with ⟨w, _, h⟩
    exact hij (congrArg Prod.fst h).symm

/-- The positive-product count of the kendallTau loop is the number of
concordant pairs in the specification's sense. -/
theorem concordant_card (x y : List ℚ) :
    (kendallPairs x.length).countP
      (fun p => decide
        (0 < (x.getD p.1 0 - x.getD p.2 0) * (y.getD p.1 0 - y.getD p.2 0))) =
    (concordantPairs x y).card := by
  rw [List.countP_eq_length_filter,
    ← List.toFinset_card_of_nodup ((kendallPairs_nodup x.length).filter _)]
  congr 1
  ext a
  simp only [List.mem_toFinset, List.mem_filter, concordantPairs,
    Finset.mem_filter, Finset.mem_product, Finset.mem_range, mem_kendallPairs,
    decide_eq_true_eq]
  constructor
  · rintro ⟨⟨h1, h2⟩, h3⟩
    exact ⟨⟨by omega, h2⟩, h1, h3⟩
  · rintro ⟨⟨h1, h2⟩, h3, h4⟩
    exact ⟨⟨h3, h2⟩, h4⟩

/-- The negative-product count of the kendallTau loop is the number of
discordant pairs in the specification's sense. -/
theorem discordant_card (x y : List ℚ) :
    (kendallPairs x.length).countP
      (fun p => decide
        ((x.getD p.1 0 - x.getD p.2 0) * (y.getD p.1 0 - y.getD p.2 0) < 0)) =
    (discordantPairs x y).card := by
  rw [List.countP_eq_length_filter,
    ← List.toFinset_card_of_nodup ((kendallPairs_nodup x.length).filter _)]
  congr 1
  ext a
  simp only [List.mem_toFinset, List.mem_filter, discordantPairs,
    Finset.mem_filter, Finset.mem_product, Finset.mem_range, mem_kendallPairs,
    decide_eq_true_eq]
  constructor
  · rintro ⟨⟨h1, h2⟩, h3⟩
    exact ⟨⟨by omega, h2⟩, h1, h3⟩
  · rintro ⟨⟨h1, h2⟩, h3, h4⟩
    exact ⟨⟨h3, h2⟩, h4⟩

/-- Claim C1: for equal-length inputs of length at least 2, kendallTau is
(C - D) / (n(n-1)/2), where C and D count the unordered pairs of distinct
indices with strictly positive (resp. strictly negative) product of
coordinate differences, pairs with product zero counting in neither, and
the denominator is the full pair count regardless of ties (tau-a). -/
theorem kendallTau_tauA_spec (x y : List ℚ) (hlen : y.length = x.length)
    (h2 : 2 ≤ x.length) :
    kendallTau x y =
      (((concordantPairs x y).card : ℚ) - ((discordantPairs x y).card : ℚ)) /
        ((x.length : ℚ) * ((x.length : ℚ) - 1) / 2) := by
  simp only [kendallTau]
  rw [foldl_count
    (fun p => (x.getD p.1 0 - x.getD p.2 0) * (y.getD p.1 0 - y.getD p.2 0))]
  simp only [Nat.zero_add]
  rw [concordant_card, discordant_card]

/-- Witness for C1 at x = [1,2], y = [3,4]. -/
theorem kendallTau_tauA_spec_witness :
    (([3, 4] : List ℚ).length = ([1, 2] : List ℚ).length ∧
      2 ≤ ([1, 2] : List ℚ).length) ∧
    kendallTau [1, 2] [3, 4] =
      (((concordantPairs [1, 2] [3, 4]).card : ℚ) -
          ((discordantPairs [1, 2] [3, 4]).card : ℚ)) /
        ((([1, 2] : List ℚ).length : ℚ) * ((([1, 2] : List ℚ).length : ℚ) - 1) / 2) :=
  ⟨⟨by decide, by decide⟩,
    kendallTau_tauA_spec [1, 2] [3, 4] (by decide) (by decide)⟩

/-- Writing assignments back with set preserves the length. -/
theorem foldl_set_length (assigns : List (ℕ × ℚ)) : ∀ (init : List ℚ),
    (assigns.foldl (fun ranks p => ranks.set p.1 p.2) init).length = init.length := by
  induction assigns with
  | nil => intro init; rfl
  | cons a t ih =>
    intro init
    rw [List.foldl_cons, ih (init.set a.1 a.2), List.length_set]

/-- Positions never assigned are untouched by the write-back fold. -/
theorem foldl_set_getElem?_not_mem (assigns : List (ℕ × ℚ)) :
    ∀ (init : List ℚ) (p : ℕ), p ∉ assigns.map Prod.fst →
      (assigns.foldl (fun ranks q => ranks.set q.1 q.2) init)[p]? = init[p]? := by
  induction assigns with
  | nil => intro init p _; rfl
  | cons a t ih =>
    intro init p hp
    rw [List.map_cons, List.mem_cons, not_or] at hp
    rw [List.foldl_cons, ih (init.set a.1 a.2) p hp.2]
    exact List.getElem?_set_ne (fun h => hp.1 h.symm)

/-- A position assigned exactly once by the fold ends up holding its
assigned value. -/
theorem foldl_set_getElem?_mem (assigns : List (ℕ × ℚ)) :
    ∀ (init : List ℚ) (p : ℕ) (r : ℚ), (assigns.map Prod.fst).Nodup →
      (p, r) ∈ assigns → p < init.length →
      (assigns.foldl (fun ranks q => ranks.set q.1 q.2) init)[p]? = some r := by
  induction assigns with
  | nil => intro init p r _ h _; exact absurd h (List.not_mem_nil _)
  | cons a t ih =>
    intro init p r hnd hmem hlt
    rw [List.map_cons, List.nodup_cons] at hnd
    rw [List.foldl_cons]
    rcases List.mem_cons.mp hmem with rfl | hmem'
    · rw [foldl_set_getElem?_not_mem t (init.set p r) p hnd.1]
      exact List.getElem?_set_self hlt
    · exact ih (init.set a.1 a.2) p r hnd.2 hmem'
        (by rw [List.length_set]; exact hlt)

/-- Sum after a single in-range set. -/
theorem sum_set (l : List ℚ) : ∀ (i : ℕ) (x : ℚ), i < l.length →
    (l.set i x).sum = l.sum - l.getD i 0 + x := by
  induction l with
  | nil => intro i x h; exact absurd h (by simp)
  | cons a t ih =>
    intro i x h
    cases i with
    | zero =>
      rw [List.set_cons_zero, List.sum_cons, List.sum_cons, List.getD_cons_zero]
      ring
    | succ m =>
      rw [List.set_cons_succ, List.sum_cons, List.sum_cons, List.getD_cons_succ,
        ih m x (by simpa using h)]
      ring

/-- Sum after the write-back fold: the initial entries at assigned
positions are replaced by the assigned values. -/
theorem foldl_set_sum (assigns : List (ℕ × ℚ)) :
    ∀ (init : List ℚ), (assigns.map Prod.fst).Nodup →
      (∀ a ∈ assigns, a.1 < init.length) →
      (assigns.foldl (fun ranks q => ranks.set q.1 q.2) init).sum =
        init.sum - (assigns.map (fun a => init.getD a.1 0)).sum +
          (assigns.map Prod.snd).sum := by
  induction assigns with
  | nil => intro init _ _; simp
  | cons a t ih =>
    intro init hnd hlt
    rw [List.map_cons, List.nodup_cons] at hnd
    have ha : a.1 < init.length := hlt a (List.mem_cons_self a t)
    rw [List.foldl_cons,
      ih (init.set a.1 a.2) hnd.2
        (fun b hb => by rw [List.length_set]; exact hlt b (List.mem_cons_of_mem a hb)),
      sum_set init a.1 a.2 ha]
    have hmap : t.map (fun b => (init.set a.1 a.2).getD b.1 0) =
        t.map (fun b => init.getD b.1 0) := by
      apply List.map_congr_left
      intro b hb
      have hne : a.1 ≠ b.1 := by
        intro h
        exact hnd.1 (h ▸ List.mem_map_of_mem Prod.fst hb)
      rw [List.getD_eq_getElem?_getD, List.getD_eq_getElem?_getD,
        List.getElem?_set_ne hne]
    rw [hmap, List.map_cons, List.sum_cons, List.map_cons, List.sum_cons]
    ring

/-- The original indices listed by the grouping loop are exactly the
indices of the sorted list, in order. -/
theorem rankGoF_fst : ∀ (fuel i : ℕ) (l : List (ℚ × ℕ)), l.length ≤ fuel →
    (rankGoF fuel i l).map Prod.fst = l.map Prod.snd := by
  intro fuel
  induction fuel with
  | zero =>
    intro i l hl
    rw [Nat.le_zero, List.length_eq_zero] at hl
    subst hl
    rfl
  | succ fuel ih =>
    intro i l hl
    cases l with
    | nil => rfl
    | cons hd rest =>
      obtain ⟨v, idx⟩ := hd
      simp only [rankGoF, List.map_append, List.map_cons, List.map_map]
      have hdrop : (rest.dropWhile (fun p => decide (p.1 = v))).length ≤ fuel := by
        have h1 := (List.dropWhile_sublist (l := rest)
          (fun p => decide (p.1 = v))).length_le
        have h2 : rest.length + 1 ≤ fuel + 1 := by simpa using hl
        omega
      rw [ih (i + (rest.takeWhile (fun p => decide (p.1 = v))).length + 1)
        (rest.dropWhile (fun p => decide (p.1 = v))) hdrop]
      have hsplit : rest.takeWhile (fun p => decide (p.1 = v)) ++
          rest.dropWhile (fun p => decide (p.1 = v)) = rest :=
        List.takeWhile_append_dropWhile _ _
      calc (idx :: ((rest.takeWhile (fun p => decide (p.1 = v))).map
            (Prod.fst ∘ fun p => (p.2, (((i + (i + (rest.takeWhile
              (fun p => decide (p.1 = v))).length) + 2 : ℕ) : ℚ) / 2))) ++
            (rest.dropWhile (fun p => decide (p.1 = v))).map Prod.snd))
          = idx :: ((rest.takeWhile (fun p => decide (p.1 = v))).map Prod.snd ++
            (rest.dropWhile (fun p => decide (p.1 = v))).map Prod.snd) := rfl
        _ = idx :: (rest.takeWhile (fun p => decide (p.1 = v)) ++
            rest.dropWhile (fun p => decide (p.1 = v))).map Prod.snd := by
              rw [List.map_append]
        _ = idx :: rest.map Prod.snd := by rw [hsplit]

/-- The ranks handed out by the grouping loop starting at sorted position i
over a block of length m sum to the sum of the 1-based ranks i+1 .. i+m. -/
theorem rankGoF_sum : ∀ (fuel i : ℕ) (l : List (ℚ × ℕ)), l.length ≤ fuel →
    ((rankGoF fuel i l).map Prod.snd).sum =
      (l.length : ℚ) * (2 * (i : ℚ) + (l.length : ℚ) + 1) / 2 := by
  intro fuel
  induction fuel with
  | zero =>
    intro i l hl
    rw [Nat.le_zero, List.length_eq_zero] at hl
    subst hl
    simp [rankGoF]
  | succ fuel ih =>
    intro i l hl
    cases l with
    | nil => simp [rankGoF]
    | cons hd rest =>
      obtain ⟨v, idx⟩ := hd
      simp only [rankGoF, List.map_append, List.map_cons, List.map_map,
        List.sum_append, List.sum_cons]
      have hdrop : (rest.dropWhile (fun p => decide (p.1 = v))).length ≤ fuel := by
        have h1 := (List.dropWhile_sublist (l := rest)
          (fun p => decide (p.1 = v))).length_le
        have h2 : rest.length + 1 ≤ fuel + 1 := by simpa using hl
        omega
      rw [ih (i + (rest.takeWhile (fun p => decide (p.1 = v))).length + 1)
        (rest.dropWhile (fun p => decide (p.1 = v))) hdrop]
      have hsplit : (rest.takeWhile (fun p => decide (p.1 = v))).length +
          (rest.dropWhile (fun p => decide (p.1 = v))).length = rest.length := by
        conv_rhs => rw [← List.takeWhile_append_dropWhile
          (p := fun p => decide (p.1 = v)) (l := rest)]
        rw [List.length_append]
      have hconst : ((rest.takeWhile (fun p => decide (p.1 = v))).map
          (Prod.snd ∘ fun p => (p.2, (((i + (i + (rest.takeWhile
            (fun p => decide (p.1 = v))).length) + 2 : ℕ) : ℚ) / 2)))).sum =
          ((rest.takeWhile (fun p => decide (p.1 = v))).length : ℚ) *
            (((i + (i + (rest.takeWhile
              (fun p => decide (p.1 = v))).length) + 2 : ℕ) : ℚ) / 2) := by
        rw [show (Prod.snd ∘ fun p : ℚ × ℕ => (p.2, (((i + (i + (rest.takeWhile
            (fun p => decide (p.1 = v))).length) + 2 : ℕ) : ℚ) / 2))) =
            (Function.const (ℚ × ℕ) (((i + (i + (rest.takeWhile
              (fun p => decide (p.1 = v))).length) + 2 : ℕ) : ℚ) / 2)) from rfl]
        rw [List.map_const, List.sum_replicate, nsmul_eq_mul]
      rw [hconst]
      set K := (rest.takeWhile (fun p => decide (p.1 = v))).length with hK
      set M := (rest.dropWhile (fun p => decide (p.1 = v))).length with hM
      have hlen : (rest.length : ℚ) = (K : ℚ) + (M : ℚ) := by
        rw [← hsplit]
        push_cast
        ring
      simp only [List.length_cons]
      push_cast [hlen]
      ring

/-- After dropping the maximal equal-value run from a sorted list whose
elements all dominate v, every remaining element is strictly greater
than v. -/
theorem dropWhile_forall_gt (v : ℚ) :
    ∀ (rest : List (ℚ × ℕ)), List.Pairwise pairLE rest →
      (∀ q ∈ rest, v ≤ q.1) →
      ∀ q ∈ rest.dropWhile (fun p => decide (p.1 = v)), v < q.1 := by
  intro rest
  induction rest with
  | nil =>
    intro _ _ q hq
    simp at hq
  | cons a t ih =>
    intro hs hle q hq
    rw [List.dropWhile_cons] at hq
    by_cases ha : a.1 = v
    · rw [if_pos (decide_eq_true ha)] at hq
      exact ih hs.of_cons (fun b hb => hle b (List.mem_cons_of_mem a hb)) q hq
    · rw [if_neg (by simp only [decide_eq_true_eq]; exact ha)] at hq
      have hav : v < a.1 :=
        lt_of_le_of_ne (hle a (List.mem_cons_self a t)) (Ne.symm ha)
      rcases List.mem_cons.mp hq with rfl | hq'
      · exact hav
      · exact lt_of_lt_of_le hav ((List.pairwise_cons.mp hs).1 q hq')

/-- Value characterization of the grouping loop on a sorted list: the rank
assigned to original index idx whose value is v equals the offset i plus
the number of strictly smaller values plus (e + 1)/2 where e is the number
of values equal to v. -/
theorem rankGoF_mem : ∀ (fuel i : ℕ) (l : List (ℚ × ℕ)), l.length ≤ fuel →
    List.Pairwise pairLE l →
    ∀ idx r, (idx, r) ∈ rankGoF fuel i l →
      ∃ v, (v, idx) ∈ l ∧
        r = (i : ℚ) + (l.countP (fun p => decide (p.1 < v)) : ℚ) +
          ((l.countP (fun p => decide (p.1 = v)) : ℚ) + 1) / 2 := by
  intro fuel
  induction fuel with
  | zero =>
    intro i l hl _ idx r hmem
    rw [Nat.le_zero, List.length_eq_zero] at hl
    subst hl
    simp [rankGoF] at hmem
  | succ fuel ih =>
    intro i l hl hs idx r hmem
    cases l with
    | nil => simp [rankGoF] at hmem
    | cons hd rest =>
      obtain ⟨v, idx0⟩ := hd
      simp only [rankGoF] at hmem
      have hsplit : rest.takeWhile (fun p => decide (p.1 = v)) ++
          rest.dropWhile (fun p => decide (p.1 = v)) = rest :=
        List.takeWhile_append_dropWhile _ _
      have hrest_le : ∀ q ∈ rest, v ≤ q.1 := by
        intro q hq
        exact (List.pairwise_cons.mp hs).1 q hq
      have hgrp_eq : ∀ q ∈ rest.takeWhile (fun p => decide (p.1 = v)), q.1 = v := by
        intro q hq
        simpa using List.mem_takeWhile_imp hq
      have hdW_gt : ∀ q ∈ rest.dropWhile (fun p => decide (p.1 = v)), v < q.1 :=
        dropWhile_forall_gt v rest hs.of_cons hrest_le
      have hgrp_sub : ∀ q ∈ rest.takeWhile (fun p => decide (p.1 = v)), q ∈ rest :=
        fun q hq => (List.takeWhile_sublist _).subset hq
      have hdW_sub : ∀ q ∈ rest.dropWhile (fun p => decide (p.1 = v)), q ∈ rest :=
        fun q hq => (List.dropWhile_sublist _).subset hq
      have hlt0 : ((v, idx0) :: rest).countP (fun p => decide (p.1 < v)) = 0 := by
        rw [List.countP_eq_zero]
        intro a ha
        simp only [decide_eq_true_eq]
        rcases List.mem_cons.mp ha with rfl | ha'
        · exact lt_irrefl v
        · exact not_lt.mpr (hrest_le a ha')
      have hg : (rest.takeWhile (fun p => decide (p.1 = v))).countP
          (fun p => decide (p.1 = v)) =
          (rest.takeWhile (fun p => decide (p.1 = v))).length :=
        List.countP_eq_length.mpr (fun a ha => decide_eq_true (hgrp_eq a ha))
      have hd0 : (rest.dropWhile (fun p => decide (p.1 = v))).countP
          (fun p => decide (p.1 = v)) = 0 :=
        List.countP_eq_zero.mpr
          (fun a ha => by
            simp only [decide_eq_true_eq]
            exact ne_of_gt (hdW_gt a ha))
      have heqc : ((v, idx0) :: rest).countP (fun p => decide (p.1 = v)) =
          (rest.takeWhile (fun p => decide (p.1 = v))).length + 1 := by
        have hr : rest.countP (fun p => decide (p.1 = v)) =
            (rest.takeWhile (fun p => decide (p.1 = v))).length := by
          conv_lhs => rw [← hsplit]
          rw [List.countP_append, hg, hd0]
          omega
        rw [List.countP_cons, hr]
        simp
      rw [List.mem_append, List.mem_cons] at hmem
      rcases hmem with (heq | hmem1) | hmem2
      · rw [Prod.mk.injEq] at heq
        refine ⟨v, List.mem_cons.mpr (Or.inl (by rw [heq.1])), ?_⟩
        rw [heq.2, hlt0, heqc]
        push_cast
        ring
      · obtain ⟨p, hp, hpe⟩ := List.mem_map.mp hmem1
        rw [Prod.mk.injEq] at hpe
        have hpv : p.1 = v := hgrp_eq p hp
        refine ⟨v, List.mem_cons.mpr (Or.inr ?_), ?_⟩
        · have : p = (v, idx) := by
            rw [Prod.ext_iff]
            exact ⟨hpv, hpe.1⟩
          rw [← this]
          exact hgrp_sub p hp
        · rw [← hpe.2, hlt0, heqc]
          push_cast
          ring
      · have hdrop_le : (rest.dropWhile (fun p => decide (p.1 = v))).length ≤ fuel := by
          have h1 := (List.dropWhile_sublist (l := rest)
            (fun p => decide (p.1 = v))).length_le
          have h2 : rest.length + 1 ≤ fuel + 1 := by simpa using hl
          omega
        have hsorted : List.Pairwise pairLE
            (rest.dropWhile (fun p => decide (p.1 = v))) :=
          List.Pairwise.sublist (List.dropWhile_sublist _) hs.of_cons
        obtain ⟨w, hwmem, hr⟩ := ih _ _ hdrop_le hsorted idx r hmem2
        have hvw : v < w := hdW_gt (w, idx) hwmem
        refine ⟨w, List.mem_cons.mpr (Or.inr (hdW_sub (w, idx) hwmem)), ?_⟩
        have hgw : (rest.takeWhile (fun p => decide (p.1 = v))).countP
            (fun p => decide (p.1 < w)) =
            (rest.takeWhile (fun p => decide (p.1 = v))).length :=
          List.countP_eq_length.mpr
            (fun a ha => decide_eq_true (by rw [hgrp_eq a ha]; exact hvw))
        have hgw0 : (rest.takeWhile (fun p => decide (p.1 = v))).countP
            (fun p => decide (p.1 = w)) = 0 :=
          List.countP_eq_zero.mpr
            (fun a ha => by
              simp only [decide_eq_true_eq]
              rw [hgrp_eq a ha]
              exact ne_of_lt hvw)
        have hltw : ((v, idx0) :: rest).countP (fun p => decide (p.1 < w)) =
            ((rest.takeWhile (fun p => decide (p.1 = v))).length + 1) +
              (rest.dropWhile (fun p => decide (p.1 = v))).countP
                (fun p => decide (p.1 < w)) := by
          have hr : rest.countP (fun p => decide (p.1 < w)) =
              (rest.takeWhile (fun p => decide (p.1 = v))).length +
                (rest.dropWhile (fun p => decide (p.1 = v))).countP
                  (fun p => decide (p.1 < w)) := by
            conv_lhs => rw [← hsplit]
            rw [List.countP_append, hgw]
          rw [List.countP_cons, hr]
          simp only [decide_eq_true_eq]
          rw [if_pos hvw]
          omega
        have heqw : ((v, idx0) :: rest).countP (fun p => decide (p.1 = w)) =
            (rest.dropWhile (fun p => decide (p.1 = v))).countP
              (fun p => decide (p.1 = w)) := by
          have hr : rest.countP (fun p => decide (p.1 = w)) =
              (rest.dropWhile (fun p => decide (p.1 = v))).countP
                (fun p => decide (p.1 = w)) := by
            conv_lhs => rw [← hsplit]
            rw [List.countP_append, hgw0]
            omega
          rw [List.countP_cons, hr]
          simp only [decide_eq_true_eq]
          rw [if_neg (ne_of_lt hvw)]
          omega
        rw [hltw, heqw, hr]
        push_cast
        ring

/-- Core midrank property, stated for any sorted permutation L of the
(value, index) pairs of arr: after the write-back fold, position p holds
the count of strictly smaller values plus (e + 1)/2 where e is the count
of equal values. -/
theorem rank_core (arr : List ℚ) (L : List (ℚ × ℕ))
    (hLp : L.Perm (arr.enum.map (fun q => (q.2, q.1))))
    (hLs : List.Pairwise pairLE L) (p : ℕ) (hp : p < arr.length) :
    ((rankGoF L.length 0 L).foldl (fun ranks q => ranks.set q.1 q.2)
        (List.replicate arr.length 0)).getD p 0 =
      (arr.countP (fun a => decide (a < arr.getD p 0)) : ℚ) +
        ((arr.countP (fun a => decide (a = arr.getD p 0)) : ℚ) + 1) / 2 := by
  have hfst : (rankGoF L.length 0 L).map Prod.fst = L.map Prod.snd :=
    rankGoF_fst _ _ _ le_rfl
  have hLsnd : (L.map Prod.snd).Perm (List.range arr.length) := by
    have h1 := hLp.map Prod.snd
    rwa [List.map_map,
      show (Prod.snd ∘ fun q : ℕ × ℚ => (q.2, q.1)) = Prod.fst from rfl,
      List.enum_map_fst] at h1
  have hperm : ((rankGoF L.length 0 L).map Prod.fst).Perm (List.range arr.length) := by
    rw [hfst]
    exact hLsnd
  have hnd : ((rankGoF L.length 0 L).map Prod.fst).Nodup :=
    hperm.nodup_iff.mpr (List.nodup_range _)
  have hpmem : p ∈ (rankGoF L.length 0 L).map Prod.fst :=
    hperm.mem_iff.mpr (List.mem_range.mpr hp)
  obtain ⟨q, hq, hqp⟩ := List.mem_map.mp hpmem
  obtain ⟨p', r⟩ := q
  have hqp' : p' = p := hqp
  subst hqp'
  obtain ⟨v, hvL, hr⟩ := rankGoF_mem L.length 0 L le_rfl hLs p' r hq
  have hvp : (v, p') ∈ arr.enum.map (fun q => (q.2, q.1)) := hLp.subset hvL
  obtain ⟨e, he, hee⟩ := List.mem_map.mp hvp
  have h1 : e.1 = p' := congrArg Prod.snd hee
  have h2 : e.2 = v := congrArg Prod.fst hee
  have he' : (p', v) ∈ arr.enum := by
    rw [← h1, ← h2, Prod.mk.eta]
    exact he
  have hgetp : arr[p']? = some v := List.mk_mem_enum_iff_getElem?.mp he'
  have hget : arr.getD p' 0 = v := by
    rw [List.getD_eq_getElem?_getD, hgetp]
    rfl
  have hclt : L.countP (fun q => decide (q.1 < v)) =
      arr.countP (fun a => decide (a < v)) := by
    rw [List.Perm.countP_eq _ hLp, List.countP_map]
    conv_rhs => rw [← List.enum_map_snd arr, List.countP_map]
    rfl
  have hceq : L.countP (fun q => decide (q.1 = v)) =
      arr.countP (fun a => decide (a = v)) := by
    rw [List.Perm.countP_eq _ hLp, List.countP_map]
    conv_rhs => rw [← List.enum_map_snd arr, List.countP_map]
    rfl
  have hfinal : ((rankGoF L.length 0 L).foldl (fun ranks q => ranks.set q.1 q.2)
      (List.replicate arr.length 0)).getD p' 0 = r := by
    rw [List.getD_eq_getElem?_getD,
      foldl_set_getElem?_mem _ _ p' r hnd hq
        (by rw [List.length_replicate]; exact hp)]
    rfl
  rw [hfinal, hget, hr, hclt, hceq]
  ring

/-- Core sum property: after the write-back fold the ranks sum to
n(n+1)/2. -/
theorem rank_sum_core (arr : List ℚ) (L : List (ℚ × ℕ))
    (hLp : L.Perm (arr.enum.map (fun q => (q.2, q.1)))) :
    ((rankGoF L.length 0 L).foldl (fun ranks q => ranks.set q.1 q.2)
        (List.replicate arr.length 0)).sum =
      (arr.length : ℚ) * ((arr.length : ℚ) + 1) / 2 := by
  have hfst : (rankGoF L.length 0 L).map Prod.fst = L.map Prod.snd :=
    rankGoF_fst _ _ _ le_rfl
  have hLsnd : (L.map Prod.snd).Perm (List.range arr.length) := by
    have h1 := hLp.map Prod.snd
    rwa [List.map_map,
      show (Prod.snd ∘ fun q : ℕ × ℚ => (q.2, q.1)) = Prod.fst from rfl,
      List.enum_map_fst] at h1
  have hperm : ((rankGoF L.length 0 L).map Prod.fst).Perm (List.range arr.length) := by
    rw [hfst]
    exact hLsnd
  have hnd : ((rankGoF L.length 0 L).map Prod.fst).Nodup :=
    hperm.nodup_iff.mpr (List.nodup_range _)
  have hall : ∀ a ∈ rankGoF L.length 0 L, a.1 < arr.length := by
    intro a ha
    have h1 : a.1 ∈ (rankGoF L.length 0 L).map Prod.fst :=
      List.mem_map_of_mem Prod.fst ha
    exact List.mem_range.mp (hperm.mem_iff.mp h1)
  rw [foldl_set_sum _ _ hnd (fun a ha => by
    rw [List.length_replicate]
    exact hall a ha)]
  have h0 : (List.replicate arr.length (0 : ℚ)).sum = 0 := by simp
  have h1 : ((rankGoF L.length 0 L).map
      (fun a => (List.replicate arr.length (0 : ℚ)).getD a.1 0)).sum = 0 := by
    apply List.sum_eq_zero
    intro x hx
    obtain ⟨a, _, rfl⟩ := List.mem_map.mp hx
    rw [List.getD_eq_getElem?_getD, List.getElem?_replicate]
    split <;> rfl
  have hlen : L.length = arr.length := by
    rw [hLp.length_eq, List.length_map, List.enum_length]
  rw [h0, h1, rankGoF_sum _ _ _ le_rfl, hlen]
  ring

/-- Claim C2: the rank transform assigns every element the midrank
c + (e + 1)/2, where c counts the strictly smaller elements and e counts
the elements exactly equal to it — i.e. every group of e equal values
receives the arithmetic mean of the e consecutive 1-based ranks c+1..c+e
it would jointly occupy; a unique smallest element (c = 0, e = 1) receives
rank 1; and the assigned ranks always sum to n(n+1)/2. -/
theorem rankArray_midrank_sum_spec (arr : List ℚ) :
    (∀ p, p < arr.length →
      (rankArray arr).getD p 0 =
        (arr.countP (fun a => decide (a < arr.getD p 0)) : ℚ) +
          ((arr.countP (fun a => decide (a = arr.getD p 0)) : ℚ) + 1) / 2) ∧
    (∀ p, p < arr.length →
      arr.countP (fun a => decide (a < arr.getD p 0)) = 0 →
      arr.countP (fun a => decide (a = arr.getD p 0)) = 1 →
      (rankArray arr).getD p 0 = 1) ∧
    (rankArray arr).sum = (arr.length : ℚ) * ((arr.length : ℚ) + 1) / 2 := by
  have hmid : ∀ p, p < arr.length →
      (rankArray arr).getD p 0 =
        (arr.countP (fun a => decide (a < arr.getD p 0)) : ℚ) +
          ((arr.countP (fun a => decide (a = arr.getD p 0)) : ℚ) + 1) / 2 := by
    intro p hp
    simp only [rankArray]
    exact rank_core arr _ (List.perm_insertionSort pairLE _)
      (List.sorted_insertionSort pairLE _) p hp
  refine ⟨hmid, ?_, ?_⟩
  · intro p hp h0 h1
    rw [hmid p hp, h0, h1]
    norm_num
  · simp only [rankArray]
    exact rank_sum_core arr _ (List.perm_insertionSort pairLE _)

/-- Witness for C2 at arr = [3,1,4,1,5], instantiating the midrank formula
at position 0 and the rank-sum identity. -/
theorem rankArray_midrank_sum_spec_witness :
    (0 : ℕ) < ([3, 1, 4, 1, 5] : List ℚ).length ∧
    (rankArray [3, 1, 4, 1, 5]).getD 0 0 =
      (([3, 1, 4, 1, 5] : List ℚ).countP
          (fun a => decide (a < ([3, 1, 4, 1, 5] : List ℚ).getD 0 0)) : ℚ) +
        ((([3, 1, 4, 1, 5] : List ℚ).countP
            (fun a => decide (a = ([3, 1, 4, 1, 5] : List ℚ).getD 0 0)) : ℚ) + 1) / 2 ∧
    (rankArray [3, 1, 4, 1, 5]).sum =
      ((([3, 1, 4, 1, 5] : List ℚ).length : ℚ)) *
        (((([3, 1, 4, 1, 5] : List ℚ).length : ℚ)) + 1) / 2 :=
  ⟨by decide,
    (rankArray_midrank_sum_spec [3, 1, 4, 1, 5]).1 0 (by decide),
    (rankArray_midrank_sum_spec [3, 1, 4, 1, 5]).2.2⟩

/-- The rank list has the same length as its input. -/
theorem rankArray_length (arr : List ℚ) : (rankArray arr).length = arr.length := by
  simp only [rankArray]
  rw [foldl_set_length, List.length_replicate]

/-- Midrank characterization of rankArray, helper form. -/
theorem rankArray_getD_eq (arr : List ℚ) (p : ℕ) (hp : p < arr.length) :
    (rankArray arr).getD p 0 =
      (arr.countP (fun a => decide (a < arr.getD p 0)) : ℚ) +
        ((arr.countP (fun a => decide (a = arr.getD p 0)) : ℚ) + 1) / 2 := by
  simp only [rankArray]
  exact rank_core arr _ (List.perm_insertionSort pairLE _)
    (List.sorted_insertionSort pairLE _) p hp

/-- An in-range getD is a member. -/
theorem getD_mem (x : List ℚ) (i : ℕ) (h : i < x.length) : x.getD i 0 ∈ x := by
  rw [List.getD_eq_getElem _ _ h]
  exact List.getElem_mem h

/-- The rank transform of a constant list is constant with value
(n + 1) / 2. -/
theorem rankArray_const (x : List ℚ) (c : ℚ) (hc : ∀ a ∈ x, a = c) :
    ∀ b ∈ rankArray x, b = ((x.length : ℚ) + 1) / 2 := by
  intro b hb
  obtain ⟨p, hp, hbp⟩ := List.mem_iff_getElem.mp hb
  have hp' : p < x.length := by
    rw [rankArray_length] at hp
    exact hp
  have hget : (rankArray x).getD p 0 = b := by
    rw [List.getD_eq_getElem _ _ hp]
    exact hbp
  have hxc : x.getD p 0 = c := hc _ (getD_mem x p hp')
  rw [← hget, rankArray_getD_eq x p hp', hxc]
  have h0 : x.countP (fun a => decide (a < c)) = 0 :=
    List.countP_eq_zero.mpr (fun a ha => by
      simp only [decide_eq_true_eq]
      rw [hc a ha]
      exact lt_irrefl c)
  have h1 : x.countP (fun a => decide (a = c)) = x.length :=
    List.countP_eq_length.mpr (fun a ha => decide_eq_true (hc a ha))
  rw [h0, h1]
  push_cast
  ring

/-- In-range JavaScript indexing yields a finite value. -/
theorem jget_lt (a : List ℚ) (i : ℕ) (h : i < a.length) :
    jget a i = JSNum.num ((a.getD i 0 : ℚ) : ℝ) := by
  unfold jget
  rw [List.getElem?_eq_getElem h, List.getD_eq_getElem _ _ h]

/-- Folding jadd of finite summands from a finite start stays finite and
accumulates the real sum. -/
theorem jfold_num {α : Type} (f : α → JSNum) (g : α → ℝ) :
    ∀ (l : List α) (c : ℝ), (∀ i ∈ l, f i = JSNum.num (g i)) →
      l.foldl (fun s i => jadd s (f i)) (JSNum.num c) =
        JSNum.num (c + (l.map g).sum) := by
  intro l
  induction l with
  | nil => intro c _; simp
  | cons a t ih =>
    intro c h
    rw [List.foldl_cons, h a (List.mem_cons_self a t)]
    show t.foldl (fun s i => jadd s (f i)) (JSNum.num (c + g a)) = _
    rw [ih (c + g a) (fun i hi => h i (List.mem_cons_of_mem a hi)),
      List.map_cons, List.sum_cons]
    rw [show c + g a + (t.map g).sum = c + (g a + (t.map g).sum) from by ring]

/-- meanJS of a nonempty list is the finite value sum / length. -/
theorem meanJS_num (a : List ℚ) (ha : a ≠ []) :
    meanJS a = JSNum.num ((a.map (fun q => ((q : ℚ) : ℝ))).sum / (a.length : ℝ)) := by
  unfold meanJS
  rw [jfold_num (fun v => JSNum.num ((v : ℚ) : ℝ)) (fun v => ((v : ℚ) : ℝ)) a 0
    (fun i _ => rfl)]
  have hL : ((a.length : ℕ) : ℝ) ≠ 0 :=
    Nat.cast_ne_zero.mpr (fun h => ha (List.length_eq_zero.mp h))
  simp only [jdiv, zero_add]
  rw [if_neg hL]

/-- meanJS of a nonempty constant list is the constant. -/
theorem meanJS_const (a : List ℚ) (ha : a ≠ []) (c : ℚ) (hc : ∀ b ∈ a, b = c) :
    meanJS a = JSNum.num ((c : ℚ) : ℝ) := by
  rw [meanJS_num a ha]
  congr 1
  have hmap : a.map (fun q => ((q : ℚ) : ℝ)) = List.replicate a.length ((c : ℚ) : ℝ) := by
    rw [List.eq_replicate_iff]
    refine ⟨by simp, ?_⟩
    intro b hb
    obtain ⟨q, hq, rfl⟩ := List.mem_map.mp hb
    rw [hc q hq]
  rw [hmap, List.sum_replicate, nsmul_eq_mul]
  have hL : ((a.length : ℕ) : ℝ) ≠ 0 :=
    Nat.cast_ne_zero.mpr (fun h => ha (List.length_eq_zero.mp h))
  field_simp

/-- The squared-deviation fold of sd in closed finite form. -/
theorem sq_fold (a : List ℚ) (m : ℝ) :
    a.foldl (fun s x => jadd s (jsq (jsub (JSNum.num ((x : ℚ) : ℝ)) (JSNum.num m))))
        (JSNum.num 0) =
      JSNum.num ((a.map (fun q => (((q : ℚ) : ℝ) - m) * (((q : ℚ) : ℝ) - m))).sum) := by
  rw [jfold_num (fun x => jsq (jsub (JSNum.num ((x : ℚ) : ℝ)) (JSNum.num m)))
    (fun q => (((q : ℚ) : ℝ) - m) * (((q : ℚ) : ℝ) - m)) a 0
    (fun i _ => by simp [jsq, jsub, jmul])]
  rw [zero_add]

/-- sdJS of a list of length at least 2 is a finite value. -/
theorem sdJS_num (a : List ℚ) (h2 : 2 ≤ a.length) :
    ∃ w : ℝ, sdJS a = JSNum.num w := by
  have ha : a ≠ [] := by
    intro h
    rw [h] at h2
    simp at h2
  simp only [sdJS]
  rw [meanJS_num a ha, sq_fold]
  have hd : ((a.length : ℝ) - 1) ≠ 0 := by
    have h2' : (2 : ℝ) ≤ (a.length : ℝ) := by exact_mod_cast h2
    intro h
    linarith
  simp only [jdiv]
  rw [if_neg hd]
  have hnn : 0 ≤ (a.map (fun q => (((q : ℚ) : ℝ) -
      (a.map (fun q => ((q : ℚ) : ℝ))).sum / (a.length : ℝ)) *
      (((q : ℚ) : ℝ) - (a.map (fun q => ((q : ℚ) : ℝ))).sum / (a.length : ℝ)))).sum /
      ((a.length : ℝ) - 1) := by
    apply div_nonneg
    · apply List.sum_nonneg
      intro t ht
      obtain ⟨q, _, rfl⟩ := List.mem_map.mp ht
      exact mul_self_nonneg _
    · have h2' : (2 : ℝ) ≤ (a.length : ℝ) := by exact_mod_cast h2
      linarith
  simp only [jsqrt]
  rw [if_neg (not_lt.mpr hnn)]
  exact ⟨_, rfl⟩

/-- sdJS of a constant list of length at least 2 is the finite value 0. -/
theorem sdJS_const (a : List ℚ) (h2 : 2 ≤ a.length) (c : ℚ)
    (hc : ∀ b ∈ a, b = c) : sdJS a = JSNum.num 0 := by
  have ha : a ≠ [] := by
    intro h
    rw [h] at h2
    simp at h2
  simp only [sdJS]
  rw [meanJS_const a ha c hc, sq_fold]
  have hz : (a.map (fun q => (((q : ℚ) : ℝ) - ((c : ℚ) : ℝ)) *
      (((q : ℚ) : ℝ) - ((c : ℚ) : ℝ)))).sum = 0 := by
    apply List.sum_eq_zero
    intro t ht
    obtain ⟨q, hq, rfl⟩ := List.mem_map.mp ht
    rw [hc q hq, sub_self, zero_mul]
  rw [hz]
  have hd : ((a.length : ℝ) - 1) ≠ 0 := by
    have h2' : (2 : ℝ) ≤ (a.length : ℝ) := by exact_mod_cast h2
    intro h
    linarith
  simp only [jdiv]
  rw [if_neg hd, zero_div]
  simp only [jsqrt]
  rw [if_neg (lt_irrefl 0), Real.sqrt_zero]

/-- Division of the finite 0 by a nonzero finite value is the finite 0. -/
theorem jdiv_zero_num (d : ℝ) (hd : d ≠ 0) :
    jdiv (JSNum.num 0) (JSNum.num d) = JSNum.num 0 := by
  simp only [jdiv]
  rw [if_neg hd, zero_div]

/-- Division of the finite 0 by the finite 0 is NaN. -/
theorem jdiv_zero_zero : jdiv (JSNum.num 0) (JSNum.num 0) = JSNum.nan := by
  simp [jdiv]

/-- pearsonr returns NaN on equal-length inputs of length at least 2 when
either side has zero variance (is constant). -/
theorem pearsonrJS_nan (x y : List ℚ) (hlen : y.length = x.length)
    (h2 : 2 ≤ x.length)
    (hconst : (∃ c, ∀ a ∈ x, a = c) ∨ (∃ c, ∀ a ∈ y, a = c)) :
    pearsonrJS x y = JSNum.nan := by
  have hy2 : 2 ≤ y.length := by omega
  have hx0 : x ≠ [] := by
    intro h
    rw [h] at h2
    simp at h2
  have hy0 : y ≠ [] := by
    intro h
    rw [h] at hy2
    simp at hy2
  have hd1 : ((x.length : ℝ) - 1) ≠ 0 := by
    have h2' : (2 : ℝ) ≤ (x.length : ℝ) := by exact_mod_cast h2
    intro h
    linarith
  have hzsum : ((List.range x.length).map (fun _ => (0 : ℝ))).sum = 0 :=
    List.sum_eq_zero (fun t ht => by
      obtain ⟨_, _, rfl⟩ := List.mem_map.mp ht
      rfl)
  rcases hconst with ⟨c, hc⟩ | ⟨c, hc⟩
  · have hcov : (List.range x.length).foldl
        (fun s i => jadd s (jmul (jsub (jget x i) (meanJS x))
          (jsub (jget y i) (meanJS y)))) (JSNum.num 0) = JSNum.num 0 := by
      rw [jfold_num (fun i => jmul (jsub (jget x i) (meanJS x))
          (jsub (jget y i) (meanJS y))) (fun _ => (0 : ℝ)) (List.range x.length) 0 ?_]
      · rw [hzsum, add_zero]
      · intro i hi
        dsimp only
        have hi' : i < x.length := List.mem_range.mp hi
        rw [meanJS_const x hx0 c hc, meanJS_num y hy0, jget_lt x i hi',
          hc _ (getD_mem x i hi'), jget_lt y i (by omega)]
        simp only [jsub, jmul]
        rw [sub_self, zero_mul]
    obtain ⟨w, hw⟩ := sdJS_num y hy2
    simp only [pearsonrJS]
    rw [hcov, sdJS_const x h2 c hc, hw, jdiv_zero_num _ hd1]
    simp only [jmul]
    rw [zero_mul, jdiv_zero_zero]
  · have hcov : (List.range x.length).foldl
        (fun s i => jadd s (jmul (jsub (jget x i) (meanJS x))
          (jsub (jget y i) (meanJS y)))) (JSNum.num 0) = JSNum.num 0 := by
      rw [jfold_num (fun i => jmul (jsub (jget x i) (meanJS x))
          (jsub (jget y i) (meanJS y))) (fun _ => (0 : ℝ)) (List.range x.length) 0 ?_]
      · rw [hzsum, add_zero]
      · intro i hi
        dsimp only
        have hi' : i < x.length := List.mem_range.mp hi
        have hiy : i < y.length := by omega
        rw [meanJS_const y hy0 c hc, meanJS_num x hx0, jget_lt x i hi',
          jget_lt y i hiy, hc _ (getD_mem y i hiy)]
        simp only [jsub, jmul]
        rw [sub_self, mul_zero]
    obtain ⟨w, hw⟩ := sdJS_num x h2
    simp only [pearsonrJS]
    rw [hcov, sdJS_const y hy2 c hc, hw, jdiv_zero_num _ hd1]
    simp only [jmul]
    rw [mul_zero, jdiv_zero_zero]

/-- spearmanr returns NaN under the same conditions: the rank transform of
a constant list is constant, so the rank-side pearsonr divides by zero
standard deviation. -/
theorem spearmanrJS_nan (x y : List ℚ) (hlen : y.length = x.length)
    (h2 : 2 ≤ x.length)
    (hconst : (∃ c, ∀ a ∈ x, a = c) ∨ (∃ c, ∀ a ∈ y, a = c)) :
    spearmanrJS x y = JSNum.nan := by
  unfold spearmanrJS
  apply pearsonrJS_nan
  · rw [rankArray_length, rankArray_length, hlen]
  · rw [rankArray_length]
    exact h2
  · rcases hconst with ⟨c, hc⟩ | ⟨c, hc⟩
    · exact Or.inl ⟨((x.length : ℚ) + 1) / 2, rankArray_const x c hc⟩
    · exact Or.inr ⟨((y.length : ℚ) + 1) / 2, rankArray_const y c hc⟩

/-- A fold whose step fixes the accumulator on every list element returns
the initial accumulator. -/
theorem foldl_of_fixed {α β : Type} (f : β → α → β) :
    ∀ (l : List α) (b : β), (∀ a ∈ l, ∀ acc, f acc a = acc) → l.foldl f b = b := by
  intro l
  induction l with
  | nil => intro b _; rfl
  | cons a t ih =>
    intro b h
    rw [List.foldl_cons, h a (List.mem_cons_self a t) b]
    exact ih b (fun a' ha' acc => h a' (List.mem_cons_of_mem a ha') acc)

/-- On a zero-variance side (and second list at least as long as the
first), kendallTau returns the finite number 0, not NaN: every pair
product is exactly zero, so both counters stay zero and 0 / (n(n-1)/2) is
an ordinary division. -/
theorem kendallTauJS_const (x y : List ℚ) (h2 : 2 ≤ x.length)
    (hleny : x.length ≤ y.length)
    (hconst : (∃ c, ∀ a ∈ x, a = c) ∨ (∃ c, ∀ a ∈ y, a = c)) :
    kendallTauJS x y = JSNum.num 0 := by
  have hl00 : jlt (JSNum.num 0) (JSNum.num 0) = false := by
    simp [jlt]
  simp only [kendallTauJS]
  rw [foldl_of_fixed _ (kendallPairs x.length) ((0 : ℕ), (0 : ℕ)) ?_]
  · have hden : ((x.length : ℝ) * ((x.length : ℝ) - 1) / 2) ≠ 0 := by
      have h2' : (2 : ℝ) ≤ (x.length : ℝ) := by exact_mod_cast h2
      have hpos : (0 : ℝ) < (x.length : ℝ) * ((x.length : ℝ) - 1) / 2 := by
        nlinarith
      exact ne_of_gt hpos
    simp only [jdiv]
    rw [if_neg hden]
    norm_num
  · intro p hp acc
    dsimp only
    obtain ⟨hij, hjn⟩ := (mem_kendallPairs x.length p).mp hp
    have h1 : p.1 < x.length := lt_trans hij hjn
    have hy1 : p.1 < y.length := by omega
    have hy2' : p.2 < y.length := by omega
    rcases hconst with ⟨c, hc⟩ | ⟨c, hc⟩
    · rw [jget_lt x p.1 h1, jget_lt x p.2 hjn, hc _ (getD_mem x p.1 h1),
        hc _ (getD_mem x p.2 hjn), jget_lt y p.1 hy1, jget_lt y p.2 hy2']
      simp only [jsub, jmul, sub_self, zero_mul, hl00]
      simp
    · rw [jget_lt x p.1 h1, jget_lt x p.2 hjn, jget_lt y p.1 hy1,
        jget_lt y p.2 hy2', hc _ (getD_mem y p.1 hy1), hc _ (getD_mem y p.2 hy2')]
      simp only [jsub, jmul, sub_self, mul_zero, hl00]
      simp

/-- Counterexample to claim C5 as stated: kendallTau on the zero-variance
input x = [1,1] (equal lengths) returns the number 0, not NaN; and on
inputs of different lengths ([1,1] vs [2,5,9]) it also returns the number
0, not NaN. -/
theorem correlation_nan_counterexample :
    kendallTauJS [1, 1] [1, 2] = JSNum.num 0 ∧
    JSNum.num (0 : ℝ) ≠ JSNum.nan ∧
    kendallTauJS [1, 1] [2, 5, 9] = JSNum.num 0 ∧
    ([1, 1] : List ℚ).length ≠ ([2, 5, 9] : List ℚ).length := by
  refine ⟨?_, ?_, ?_, by decide⟩
  · exact kendallTauJS_const [1, 1] [1, 2] (by decide) (by decide)
      (Or.inl ⟨1, fun a ha => by simpa using ha⟩)
  · intro h
    exact JSNum.noConfusion h
  · exact kendallTauJS_const [1, 1] [2, 5, 9] (by decide) (by decide)
      (Or.inl ⟨1, fun a ha => by simpa using ha⟩)

/-- Claim C5 (amended): on equal-length inputs of length at least 2 with
zero variance on either side, pearsonr and spearmanr return the
not-a-number sentinel, while kendallTau instead returns the ordinary
number 0; on inputs of differing lengths no NaN is guaranteed (see the
counterexample). -/
theorem correlation_zero_variance_spec (x y : List ℚ)
    (hlen : y.length = x.length) (h2 : 2 ≤ x.length)
    (hconst : (∃ c, ∀ a ∈ x, a = c) ∨ (∃ c, ∀ a ∈ y, a = c)) :
    pearsonrJS x y = JSNum.nan ∧ spearmanrJS x y = JSNum.nan ∧
      kendallTauJS x y = JSNum.num 0 :=
  ⟨pearsonrJS_nan x y hlen h2 hconst,
    spearmanrJS_nan x y hlen h2 hconst,
    kendallTauJS_const x y h2 (le_of_eq hlen.symm) hconst⟩

/-- Witness for the amended C5 at x = [2,2], y = [1,3]. -/
theorem correlation_zero_variance_spec_witness :
    (([1, 3] : List ℚ).length = ([2, 2] : List ℚ).length ∧
      2 ≤ ([2, 2] : List ℚ).length ∧
      ((∃ c, ∀ a ∈ ([2, 2] : List ℚ), a = c) ∨
        (∃ c, ∀ a ∈ ([1, 3] : List ℚ), a = c))) ∧
    (pearsonrJS [2, 2] [1, 3] = JSNum.nan ∧
      spearmanrJS [2, 2] [1, 3] = JSNum.nan ∧
      kendallTauJS [2, 2] [1, 3] = JSNum.num 0) :=
  ⟨⟨by decide, by decide, Or.inl ⟨2, fun a ha => by simpa using ha⟩⟩,
    correlation_zero_variance_spec [2, 2] [1, 3] (by decide) (by decide)
      (Or.inl ⟨2, fun a ha => by simpa using ha⟩)⟩

end CorrelationGame
